import Mathlib

/-!
Verification of the piecewise modular cipher implemented in
`Assignment-2.1.py`.  Characters are Lean `Char`s (Unicode scalar values,
matching Python single-character strings compared by code point); the shift
pair is a pair of unbounded integers, and all index arithmetic is done in
`Int` with `%` (Euclidean remainder, which agrees with Python's `%` for the
positive modulus 26).
-/

/-- Code point of the character a, as in the source constant LOW_A = ord('a'). -/
def LOW_A : Nat := 'a'.toNat

/-- Code point of the character A, as in the source constant UP_A = ord('A'). -/
def UP_A : Nat := 'A'.toNat

/-- Forward transform `encrypt_character(ch, s1, s2)`: lowercase a-m shift
forward by s1*s2, lowercase n-z backward by s1+s2, uppercase A-M backward by
s1, uppercase N-Z forward by s2*s2, everything else unchanged; all index
arithmetic mod 26, result mapped back into the same case's letter range. -/
def encrypt_character (ch : Char) (s1 s2 : Int) : Char :=
  if 'a' ≤ ch ∧ ch ≤ 'z' then
    if ch ≤ 'm' then
      Char.ofNat ((((ch.toNat : Int) - (LOW_A : Int) + s1 * s2) % 26).toNat + LOW_A)
    else
      Char.ofNat ((((ch.toNat : Int) - (LOW_A : Int) + -(s1 + s2)) % 26).toNat + LOW_A)
  else if 'A' ≤ ch ∧ ch ≤ 'Z' then
    if ch ≤ 'M' then
      Char.ofNat ((((ch.toNat : Int) - (UP_A : Int) + -s1) % 26).toNat + UP_A)
    else
      Char.ofNat ((((ch.toNat : Int) - (UP_A : Int) + s2 * s2) % 26).toNat + UP_A)
  else ch

/-- Inverse with ambiguity reporting, `decrypt_character_with_ambiguity`:
computes both candidate originals (one per half of the case), verifies each
(candidate lies in its assumed half AND re-encrypting reproduces the input),
then applies the four-way decision table from the source. -/
def decrypt_character_with_ambiguity (ch : Char) (s1 s2 : Int) : Char × Bool :=
  if 'a' ≤ ch ∧ ch ≤ 'z' then
    let idx : Int := (ch.toNat : Int) - (LOW_A : Int)
    let cand_first := (idx - s1 * s2) % 26
    let cand_second := (idx + (s1 + s2)) % 26
    let c1 := Char.ofNat (cand_first.toNat + LOW_A)
    let c2 := Char.ofNat (cand_second.toNat + LOW_A)
    let ok1 := decide (c1 ≤ 'm') && decide (encrypt_character c1 s1 s2 = ch)
    let ok2 := decide ('n' ≤ c2) && decide (encrypt_character c2 s1 s2 = ch)
    if ok1 && !ok2 then (c1, false)
    else if ok2 && !ok1 then (c2, false)
    else if ok1 && ok2 then (c1, true)
    else (ch, true)
  else if 'A' ≤ ch ∧ ch ≤ 'Z' then
    let idx : Int := (ch.toNat : Int) - (UP_A : Int)
    let cand_first := (idx + s1) % 26
    let cand_second := (idx - s2 * s2) % 26
    let c1 := Char.ofNat (cand_first.toNat + UP_A)
    let c2 := Char.ofNat (cand_second.toNat + UP_A)
    let ok1 := decide (c1 ≤ 'M') && decide (encrypt_character c1 s1 s2 = ch)
    let ok2 := decide ('N' ≤ c2) && decide (encrypt_character c2 s1 s2 = ch)
    if ok1 && !ok2 then (c1, false)
    else if ok2 && !ok1 then (c2, false)
    else if ok1 && ok2 then (c1, true)
    else (ch, true)
  else (ch, false)

/-- First-half candidate computed by the lowercase branch of the decoder. -/
def lowercase_candidate1 (ch : Char) (s1 s2 : Int) : Char :=
  Char.ofNat (((((ch.toNat : Int) - (LOW_A : Int)) - s1 * s2) % 26).toNat + LOW_A)

/-- Second-half candidate computed by the lowercase branch of the decoder. -/
def lowercase_candidate2 (ch : Char) (s1 s2 : Int) : Char :=
  Char.ofNat (((((ch.toNat : Int) - (LOW_A : Int)) + (s1 + s2)) % 26).toNat + LOW_A)

/-- Verification outcome ok1 of the lowercase branch: the first-half candidate
lies in a-m and re-encrypting it reproduces the input. -/
def lowercase_ok1 (ch : Char) (s1 s2 : Int) : Bool :=
  decide (lowercase_candidate1 ch s1 s2 ≤ 'm') &&
    decide (encrypt_character (lowercase_candidate1 ch s1 s2) s1 s2 = ch)

/-- Verification outcome ok2 of the lowercase branch: the second-half candidate
lies in n-z and re-encrypting it reproduces the input. -/
def lowercase_ok2 (ch : Char) (s1 s2 : Int) : Bool :=
  decide ('n' ≤ lowercase_candidate2 ch s1 s2) &&
    decide (encrypt_character (lowercase_candidate2 ch s1 s2) s1 s2 = ch)

/-- First-half candidate computed by the uppercase branch of the decoder. -/
def uppercase_candidate1 (ch : Char) (s1 s2 : Int) : Char :=
  Char.ofNat (((((ch.toNat : Int) - (UP_A : Int)) + s1) % 26).toNat + UP_A)

/-- Second-half candidate computed by the uppercase branch of the decoder. -/
def uppercase_candidate2 (ch : Char) (s1 s2 : Int) : Char :=
  Char.ofNat (((((ch.toNat : Int) - (UP_A : Int)) - s2 * s2) % 26).toNat + UP_A)

/-- Verification outcome ok1 of the uppercase branch. -/
def uppercase_ok1 (ch : Char) (s1 s2 : Int) : Bool :=
  decide (uppercase_candidate1 ch s1 s2 ≤ 'M') &&
    decide (encrypt_character (uppercase_candidate1 ch s1 s2) s1 s2 = ch)

/-- Verification outcome ok2 of the uppercase branch. -/
def uppercase_ok2 (ch : Char) (s1 s2 : Int) : Bool :=
  decide ('N' ≤ uppercase_candidate2 ch s1 s2) &&
    decide (encrypt_character (uppercase_candidate2 ch s1 s2) s1 s2 = ch)

/-- Loop body of `decrypt_file`: walks the ciphertext carrying the current
0-based position, producing the decoded characters and the positions whose
ambiguity flag is set and whose ciphertext character is alphabetic.  (Python's
`str.isalpha` and Lean's `Char.isAlpha` agree on every character for which the
decoder can set the flag, since the flag is only ever set inside the two ASCII
letter branches.) -/
def decryptLoop (s1 s2 : Int) : Nat → List Char → List Char × List Nat
  | _, [] => ([], [])
  | i, ch :: rest =>
    let dec := decrypt_character_with_ambiguity ch s1 s2
    let tail := decryptLoop s1 s2 (i + 1) rest
    (dec.1 :: tail.1, if dec.2 && ch.isAlpha then i :: tail.2 else tail.2)

/-- Stream-level decoder of `decrypt_file` (file I/O elided): returns the
decoded stream and the ordered list of ambiguous alphabetic positions. -/
def decrypt_file (cipher : List Char) (s1 s2 : Int) : List Char × List Nat :=
  decryptLoop s1 s2 0 cipher

theorem LOW_A_eq : LOW_A = 97 := rfl

theorem UP_A_eq : UP_A = 65 := rfl

theorem char_le_iff {a b : Char} : a ≤ b ↔ a.toNat ≤ b.toNat := by
  rw [Char.le_def, UInt32.le_def, BitVec.le_def]
  exact Iff.rfl

theorem char_toNat_inj {a b : Char} (h : a.toNat = b.toNat) : a = b := by
  have h2 := congrArg Char.ofNat h
  simpa [Char.ofNat_toNat] using h2

theorem toNat_Char_ofNat {n : Nat} (h : n < 55296) : (Char.ofNat n).toNat = n := by
  have hv : n.isValidChar := Or.inl h
  rw [Char.ofNat, dif_pos hv]
  simp [Char.ofNatAux, Char.toNat, UInt32.toNat]

theorem encrypt_lower_first {ch : Char} (h1 : 'a' ≤ ch) (h2 : ch ≤ 'm') (s1 s2 : Int) :
    ((encrypt_character ch s1 s2).toNat : Int) =
      ((ch.toNat : Int) - 97 + s1 * s2) % 26 + 97 := by
  have hn1 : 97 ≤ ch.toNat := char_le_iff.mp h1
  have hn2 : ch.toNat ≤ 109 := char_le_iff.mp h2
  have hz : ch ≤ 'z' := char_le_iff.mpr (by omega : ch.toNat ≤ 122)
  unfold encrypt_character
  rw [if_pos ⟨h1, hz⟩, if_pos h2]
  have hm1 : (0:Int) ≤ ((ch.toNat : Int) - (LOW_A : Int) + s1 * s2) % 26 :=
    Int.emod_nonneg _ (by decide)
  have hm2 : ((ch.toNat : Int) - (LOW_A : Int) + s1 * s2) % 26 < 26 :=
    Int.emod_lt_of_pos _ (by decide)
  rw [LOW_A_eq] at hm1 hm2 ⊢
  rw [toNat_Char_ofNat (by omega)]
  omega

theorem encrypt_lower_second {ch : Char} (h1 : 'n' ≤ ch) (h2 : ch ≤ 'z') (s1 s2 : Int) :
    ((encrypt_character ch s1 s2).toNat : Int) =
      ((ch.toNat : Int) - 97 - (s1 + s2)) % 26 + 97 := by
  have hn1 : 110 ≤ ch.toNat := char_le_iff.mp h1
  have hn2 : ch.toNat ≤ 122 := char_le_iff.mp h2
  have ha : 'a' ≤ ch := char_le_iff.mpr (by omega : 97 ≤ ch.toNat)
  have hm : ¬ ch ≤ 'm' := by
    intro hx
    have : ch.toNat ≤ 109 := char_le_iff.mp hx
    omega
  unfold encrypt_character
  rw [if_pos ⟨ha, h2⟩, if_neg hm]
  have hm1 : (0:Int) ≤ ((ch.toNat : Int) - (LOW_A : Int) + -(s1 + s2)) % 26 :=
    Int.emod_nonneg _ (by decide)
  have hm2 : ((ch.toNat : Int) - (LOW_A : Int) + -(s1 + s2)) % 26 < 26 :=
    Int.emod_lt_of_pos _ (by decide)
  rw [LOW_A_eq] at hm1 hm2 ⊢
  rw [toNat_Char_ofNat (by omega)]
  omega

theorem encrypt_upper_first {ch : Char} (h1 : 'A' ≤ ch) (h2 : ch ≤ 'M') (s1 s2 : Int) :
    ((encrypt_character ch s1 s2).toNat : Int) =
      ((ch.toNat : Int) - 65 - s1) % 26 + 65 := by
  have hn1 : 65 ≤ ch.toNat := char_le_iff.mp h1
  have hn2 : ch.toNat ≤ 77 := char_le_iff.mp h2
  have hz : ch ≤ 'Z' := char_le_iff.mpr (by omega : ch.toNat ≤ 90)
  have hlow : ¬ ('a' ≤ ch ∧ ch ≤ 'z') := by
    rintro ⟨hx, -⟩
    have : 97 ≤ ch.toNat := char_le_iff.mp hx
    omega
  unfold encrypt_character
  rw [if_neg hlow, if_pos ⟨h1, hz⟩, if_pos h2]
  have hm1 : (0:Int) ≤ ((ch.toNat : Int) - (UP_A : Int) + -s1) % 26 :=
    Int.emod_nonneg _ (by decide)
  have hm2 : ((ch.toNat : Int) - (UP_A : Int) + -s1) % 26 < 26 :=
    Int.emod_lt_of_pos _ (by decide)
  rw [UP_A_eq] at hm1 hm2 ⊢
  rw [toNat_Char_ofNat (by omega)]
  omega

theorem encrypt_upper_second {ch : Char} (h1 : 'N' ≤ ch) (h2 : ch ≤ 'Z') (s1 s2 : Int) :
    ((encrypt_character ch s1 s2).toNat : Int) =
      ((ch.toNat : Int) - 65 + s2 * s2) % 26 + 65 := by
  have hn1 : 78 ≤ ch.toNat := char_le_iff.mp h1
  have hn2 : ch.toNat ≤ 90 := char_le_iff.mp h2
  have hA : 'A' ≤ ch := char_le_iff.mpr (by omega : 65 ≤ ch.toNat)
  have hM : ¬ ch ≤ 'M' := by
    intro hx
    have : ch.toNat ≤ 77 := char_le_iff.mp hx
    omega
  have hlow : ¬ ('a' ≤ ch ∧ ch ≤ 'z') := by
    rintro ⟨hx, -⟩
    have : 97 ≤ ch.toNat := char_le_iff.mp hx
    omega
  unfold encrypt_character
  rw [if_neg hlow, if_pos ⟨hA, h2⟩, if_neg hM]
  have hm1 : (0:Int) ≤ ((ch.toNat : Int) - (UP_A : Int) + s2 * s2) % 26 :=
    Int.emod_nonneg _ (by decide)
  have hm2 : ((ch.toNat : Int) - (UP_A : Int) + s2 * s2) % 26 < 26 :=
    Int.emod_lt_of_pos _ (by decide)
  rw [UP_A_eq] at hm1 hm2 ⊢
  rw [toNat_Char_ofNat (by omega)]
  omega

theorem encrypt_other {ch : Char} (h1 : ¬ ('a' ≤ ch ∧ ch ≤ 'z'))
    (h2 : ¬ ('A' ≤ ch ∧ ch ≤ 'Z')) (s1 s2 : Int) :
    encrypt_character ch s1 s2 = ch := by
  unfold encrypt_character
  rw [if_neg h1, if_neg h2]

theorem decrypt_other {ch : Char} (h1 : ¬ ('a' ≤ ch ∧ ch ≤ 'z'))
    (h2 : ¬ ('A' ≤ ch ∧ ch ≤ 'Z')) (s1 s2 : Int) :
    decrypt_character_with_ambiguity ch s1 s2 = (ch, false) := by
  unfold decrypt_character_with_ambiguity
  rw [if_neg h1, if_neg h2]

theorem lowercase_candidate1_toNat (ch : Char) (s1 s2 : Int) :
    ((lowercase_candidate1 ch s1 s2).toNat : Int) =
      (((ch.toNat : Int) - 97) - s1 * s2) % 26 + 97 := by
  unfold lowercase_candidate1
  have hm1 : (0:Int) ≤ (((ch.toNat : Int) - (LOW_A : Int)) - s1 * s2) % 26 :=
    Int.emod_nonneg _ (by decide)
  have hm2 : (((ch.toNat : Int) - (LOW_A : Int)) - s1 * s2) % 26 < 26 :=
    Int.emod_lt_of_pos _ (by decide)
  rw [LOW_A_eq] at hm1 hm2 ⊢
  rw [toNat_Char_ofNat (by omega)]
  omega

theorem lowercase_candidate2_toNat (ch : Char) (s1 s2 : Int) :
    ((lowercase_candidate2 ch s1 s2).toNat : Int) =
      (((ch.toNat : Int) - 97) + (s1 + s2)) % 26 + 97 := by
  unfold lowercase_candidate2
  have hm1 : (0:Int) ≤ (((ch.toNat : Int) - (LOW_A : Int)) + (s1 + s2)) % 26 :=
    Int.emod_nonneg _ (by decide)
  have hm2 : (((ch.toNat : Int) - (LOW_A : Int)) + (s1 + s2)) % 26 < 26 :=
    Int.emod_lt_of_pos _ (by decide)
  rw [LOW_A_eq] at hm1 hm2 ⊢
  rw [toNat_Char_ofNat (by omega)]
  omega

theorem uppercase_candidate1_toNat (ch : Char) (s1 s2 : Int) :
    ((uppercase_candidate1 ch s1 s2).toNat : Int) =
      (((ch.toNat : Int) - 65) + s1) % 26 + 65 := by
  unfold uppercase_candidate1
  have hm1 : (0:Int) ≤ (((ch.toNat : Int) - (UP_A : Int)) + s1) % 26 :=
    Int.emod_nonneg _ (by decide)
  have hm2 : (((ch.toNat : Int) - (UP_A : Int)) + s1) % 26 < 26 :=
    Int.emod_lt_of_pos _ (by decide)
  rw [UP_A_eq] at hm1 hm2 ⊢
  rw [toNat_Char_ofNat (by omega)]
  omega

theorem uppercase_candidate2_toNat (ch : Char) (s1 s2 : Int) :
    ((uppercase_candidate2 ch s1 s2).toNat : Int) =
      (((ch.toNat : Int) - 65) - s2 * s2) % 26 + 65 := by
  unfold uppercase_candidate2
  have hm1 : (0:Int) ≤ (((ch.toNat : Int) - (UP_A : Int)) - s2 * s2) % 26 :=
    Int.emod_nonneg _ (by decide)
  have hm2 : (((ch.toNat : Int) - (UP_A : Int)) - s2 * s2) % 26 < 26 :=
    Int.emod_lt_of_pos _ (by decide)
  rw [UP_A_eq] at hm1 hm2 ⊢
  rw [toNat_Char_ofNat (by omega)]
  omega

theorem lowercase_reencrypt1 {ch : Char} (h1 : 'a' ≤ ch) (h2 : ch ≤ 'z') {s1 s2 : Int}
    (hhalf : lowercase_candidate1 ch s1 s2 ≤ 'm') :
    encrypt_character (lowercase_candidate1 ch s1 s2) s1 s2 = ch := by
  have hn1 : 97 ≤ ch.toNat := char_le_iff.mp h1
  have hn2 : ch.toNat ≤ 122 := char_le_iff.mp h2
  have hc := lowercase_candidate1_toNat ch s1 s2
  have ha : 'a' ≤ lowercase_candidate1 ch s1 s2 :=
    char_le_iff.mpr (by omega : 97 ≤ (lowercase_candidate1 ch s1 s2).toNat)
  have he := encrypt_lower_first ha hhalf s1 s2
  exact char_toNat_inj (by omega)

theorem lowercase_reencrypt2 {ch : Char} (h1 : 'a' ≤ ch) (h2 : ch ≤ 'z') {s1 s2 : Int}
    (hhalf : 'n' ≤ lowercase_candidate2 ch s1 s2) :
    encrypt_character (lowercase_candidate2 ch s1 s2) s1 s2 = ch := by
  have hn1 : 97 ≤ ch.toNat := char_le_iff.mp h1
  have hn2 : ch.toNat ≤ 122 := char_le_iff.mp h2
  have hc := lowercase_candidate2_toNat ch s1 s2
  have hz : lowercase_candidate2 ch s1 s2 ≤ 'z' :=
    char_le_iff.mpr (by omega : (lowercase_candidate2 ch s1 s2).toNat ≤ 122)
  have he := encrypt_lower_second hhalf hz s1 s2
  exact char_toNat_inj (by omega)

theorem uppercase_reencrypt1 {ch : Char} (h1 : 'A' ≤ ch) (h2 : ch ≤ 'Z') {s1 s2 : Int}
    (hhalf : uppercase_candidate1 ch s1 s2 ≤ 'M') :
    encrypt_character (uppercase_candidate1 ch s1 s2) s1 s2 = ch := by
  have hn1 : 65 ≤ ch.toNat := char_le_iff.mp h1
  have hn2 : ch.toNat ≤ 90 := char_le_iff.mp h2
  have hc := uppercase_candidate1_toNat ch s1 s2
  have ha : 'A' ≤ uppercase_candidate1 ch s1 s2 :=
    char_le_iff.mpr (by omega : 65 ≤ (uppercase_candidate1 ch s1 s2).toNat)
  have he := encrypt_upper_first ha hhalf s1 s2
  exact char_toNat_inj (by omega)

theorem uppercase_reencrypt2 {ch : Char} (h1 : 'A' ≤ ch) (h2 : ch ≤ 'Z') {s1 s2 : Int}
    (hhalf : 'N' ≤ uppercase_candidate2 ch s1 s2) :
    encrypt_character (uppercase_candidate2 ch s1 s2) s1 s2 = ch := by
  have hn1 : 65 ≤ ch.toNat := char_le_iff.mp h1
  have hn2 : ch.toNat ≤ 90 := char_le_iff.mp h2
  have hc := uppercase_candidate2_toNat ch s1 s2
  have hz : uppercase_candidate2 ch s1 s2 ≤ 'Z' :=
    char_le_iff.mpr (by omega : (uppercase_candidate2 ch s1 s2).toNat ≤ 90)
  have he := encrypt_upper_second hhalf hz s1 s2
  exact char_toNat_inj (by omega)

theorem lowercase_ok1_eq {ch : Char} (h1 : 'a' ≤ ch) (h2 : ch ≤ 'z') (s1 s2 : Int) :
    lowercase_ok1 ch s1 s2 = decide ((((ch.toNat : Int) - 97) - s1 * s2) % 26 ≤ 12) := by
  have hc := lowercase_candidate1_toNat ch s1 s2
  by_cases hj : (((ch.toNat : Int) - 97) - s1 * s2) % 26 ≤ 12
  · have hhalf : lowercase_candidate1 ch s1 s2 ≤ 'm' :=
      char_le_iff.mpr (by omega : (lowercase_candidate1 ch s1 s2).toNat ≤ 109)
    simp [lowercase_ok1, hhalf, lowercase_reencrypt1 h1 h2 hhalf, hj]
  · have hhalf : ¬ lowercase_candidate1 ch s1 s2 ≤ 'm' := by
      intro hx
      have : (lowercase_candidate1 ch s1 s2).toNat ≤ 109 := char_le_iff.mp hx
      omega
    simp [lowercase_ok1, hhalf, hj]

theorem lowercase_ok2_eq {ch : Char} (h1 : 'a' ≤ ch) (h2 : ch ≤ 'z') (s1 s2 : Int) :
    lowercase_ok2 ch s1 s2 = decide (13 ≤ (((ch.toNat : Int) - 97) + (s1 + s2)) % 26) := by
  have hc := lowercase_candidate2_toNat ch s1 s2
  by_cases hj : 13 ≤ (((ch.toNat : Int) - 97) + (s1 + s2)) % 26
  · have hhalf : 'n' ≤ lowercase_candidate2 ch s1 s2 :=
      char_le_iff.mpr (by omega : 110 ≤ (lowercase_candidate2 ch s1 s2).toNat)
    simp [lowercase_ok2, hhalf, lowercase_reencrypt2 h1 h2 hhalf, hj]
  · have hhalf : ¬ 'n' ≤ lowercase_candidate2 ch s1 s2 := by
      intro hx
      have : 110 ≤ (lowercase_candidate2 ch s1 s2).toNat := char_le_iff.mp hx
      omega
    simp [lowercase_ok2, hhalf, hj]

theorem uppercase_ok1_eq {ch : Char} (h1 : 'A' ≤ ch) (h2 : ch ≤ 'Z') (s1 s2 : Int) :
    uppercase_ok1 ch s1 s2 = decide ((((ch.toNat : Int) - 65) + s1) % 26 ≤ 12) := by
  have hc := uppercase_candidate1_toNat ch s1 s2
  by_cases hj : (((ch.toNat : Int) - 65) + s1) % 26 ≤ 12
  · have hhalf : uppercase_candidate1 ch s1 s2 ≤ 'M' :=
      char_le_iff.mpr (by omega : (uppercase_candidate1 ch s1 s2).toNat ≤ 77)
    simp [uppercase_ok1, hhalf, uppercase_reencrypt1 h1 h2 hhalf, hj]
  · have hhalf : ¬ uppercase_candidate1 ch s1 s2 ≤ 'M' := by
      intro hx
      have : (uppercase_candidate1 ch s1 s2).toNat ≤ 77 := char_le_iff.mp hx
      omega
    simp [uppercase_ok1, hhalf, hj]

theorem uppercase_ok2_eq {ch : Char} (h1 : 'A' ≤ ch) (h2 : ch ≤ 'Z') (s1 s2 : Int) :
    uppercase_ok2 ch s1 s2 = decide (13 ≤ (((ch.toNat : Int) - 65) - s2 * s2) % 26) := by
  have hc := uppercase_candidate2_toNat ch s1 s2
  by_cases hj : 13 ≤ (((ch.toNat : Int) - 65) - s2 * s2) % 26
  · have hhalf : 'N' ≤ uppercase_candidate2 ch s1 s2 :=
      char_le_iff.mpr (by omega : 78 ≤ (uppercase_candidate2 ch s1 s2).toNat)
    simp [uppercase_ok2, hhalf, uppercase_reencrypt2 h1 h2 hhalf, hj]
  · have hhalf : ¬ 'N' ≤ uppercase_candidate2 ch s1 s2 := by
      intro hx
      have : 78 ≤ (uppercase_candidate2 ch s1 s2).toNat := char_le_iff.mp hx
      omega
    simp [uppercase_ok2, hhalf, hj]

theorem decrypt_lower_table {ch : Char} (h : 'a' ≤ ch ∧ ch ≤ 'z') (s1 s2 : Int) :
    decrypt_character_with_ambiguity ch s1 s2 =
      (if lowercase_ok1 ch s1 s2 && !lowercase_ok2 ch s1 s2 then
        (lowercase_candidate1 ch s1 s2, false)
      else if lowercase_ok2 ch s1 s2 && !lowercase_ok1 ch s1 s2 then
        (lowercase_candidate2 ch s1 s2, false)
      else if lowercase_ok1 ch s1 s2 && lowercase_ok2 ch s1 s2 then
        (lowercase_candidate1 ch s1 s2, true)
      else (ch, true)) := by
  unfold decrypt_character_with_ambiguity
  rw [if_pos h]
  rfl

theorem decrypt_upper_table {ch : Char} (hlow : ¬ ('a' ≤ ch ∧ ch ≤ 'z'))
    (h : 'A' ≤ ch ∧ ch ≤ 'Z') (s1 s2 : Int) :
    decrypt_character_with_ambiguity ch s1 s2 =
      (if uppercase_ok1 ch s1 s2 && !uppercase_ok2 ch s1 s2 then
        (uppercase_candidate1 ch s1 s2, false)
      else if uppercase_ok2 ch s1 s2 && !uppercase_ok1 ch s1 s2 then
        (uppercase_candidate2 ch s1 s2, false)
      else if uppercase_ok1 ch s1 s2 && uppercase_ok2 ch s1 s2 then
        (uppercase_candidate1 ch s1 s2, true)
      else (ch, true)) := by
  unfold decrypt_character_with_ambiguity
  rw [if_neg hlow, if_pos h]
  rfl

theorem decrypt_lower_cases {ch : Char} (h1 : 'a' ≤ ch) (h2 : ch ≤ 'z') (s1 s2 : Int) :
    decrypt_character_with_ambiguity ch s1 s2 =
      (if (((ch.toNat : Int) - 97) - s1 * s2) % 26 ≤ 12 then
        if 13 ≤ (((ch.toNat : Int) - 97) + (s1 + s2)) % 26 then
          (lowercase_candidate1 ch s1 s2, true)
        else (lowercase_candidate1 ch s1 s2, false)
      else
        if 13 ≤ (((ch.toNat : Int) - 97) + (s1 + s2)) % 26 then
          (lowercase_candidate2 ch s1 s2, false)
        else (ch, true)) := by
  rw [decrypt_lower_table ⟨h1, h2⟩ s1 s2, lowercase_ok1_eq h1 h2, lowercase_ok2_eq h1 h2]
  by_cases ha : (((ch.toNat : Int) - 97) - s1 * s2) % 26 ≤ 12 <;>
    by_cases hb : 13 ≤ (((ch.toNat : Int) - 97) + (s1 + s2)) % 26 <;>
    simp [ha, hb]

theorem decrypt_upper_cases {ch : Char} (h1 : 'A' ≤ ch) (h2 : ch ≤ 'Z') (s1 s2 : Int) :
    decrypt_character_with_ambiguity ch s1 s2 =
      (if (((ch.toNat : Int) - 65) + s1) % 26 ≤ 12 then
        if 13 ≤ (((ch.toNat : Int) - 65) - s2 * s2) % 26 then
          (uppercase_candidate1 ch s1 s2, true)
        else (uppercase_candidate1 ch s1 s2, false)
      else
        if 13 ≤ (((ch.toNat : Int) - 65) - s2 * s2) % 26 then
          (uppercase_candidate2 ch s1 s2, false)
        else (ch, true)) := by
  have hn2 : ch.toNat ≤ 90 := char_le_iff.mp h2
  have hlow : ¬ ('a' ≤ ch ∧ ch ≤ 'z') := by
    rintro ⟨hx, -⟩
    have : 97 ≤ ch.toNat := char_le_iff.mp hx
    omega
  rw [decrypt_upper_table hlow ⟨h1, h2⟩ s1 s2, uppercase_ok1_eq h1 h2, uppercase_ok2_eq h1 h2]
  by_cases ha : (((ch.toNat : Int) - 65) + s1) % 26 ≤ 12 <;>
    by_cases hb : 13 ≤ (((ch.toNat : Int) - 65) - s2 * s2) % 26 <;>
    simp [ha, hb]

/-- C1: `encrypt_character` applies exactly the rule table, with all arithmetic
mod 26 mapped back into the same case's letter range: lowercase a-m gains
s1*s2, lowercase n-z loses s1+s2, uppercase A-M loses s1, uppercase N-Z gains
s2*s2, and every other character is returned unchanged; in particular
encrypting H, e, l with shifts (3,4) yields E, q, x. -/
theorem C1_encrypt_rule_table : ∀ (c : Char) (s1 s2 : Int),
    (('a' ≤ c ∧ c ≤ 'm') →
      ((encrypt_character c s1 s2).toNat : Int) - 97 =
        (((c.toNat : Int) - 97) + s1 * s2) % 26) ∧
    (('n' ≤ c ∧ c ≤ 'z') →
      ((encrypt_character c s1 s2).toNat : Int) - 97 =
        (((c.toNat : Int) - 97) - (s1 + s2)) % 26) ∧
    (('A' ≤ c ∧ c ≤ 'M') →
      ((encrypt_character c s1 s2).toNat : Int) - 65 =
        (((c.toNat : Int) - 65) - s1) % 26) ∧
    (('N' ≤ c ∧ c ≤ 'Z') →
      ((encrypt_character c s1 s2).toNat : Int) - 65 =
        (((c.toNat : Int) - 65) + s2 * s2) % 26) ∧
    (¬ ('a' ≤ c ∧ c ≤ 'z') → ¬ ('A' ≤ c ∧ c ≤ 'Z') → encrypt_character c s1 s2 = c) ∧
    encrypt_character 'H' 3 4 = 'E' ∧
    encrypt_character 'e' 3 4 = 'q' ∧
    encrypt_character 'l' 3 4 = 'x' := by
  intro c s1 s2
  refine ⟨?_, ?_, ?_, ?_, ?_, by decide, by decide, by decide⟩
  · rintro ⟨h1, h2⟩
    have := encrypt_lower_first h1 h2 s1 s2
    omega
  · rintro ⟨h1, h2⟩
    have := encrypt_lower_second h1 h2 s1 s2
    omega
  · rintro ⟨h1, h2⟩
    have := encrypt_upper_first h1 h2 s1 s2
    omega
  · rintro ⟨h1, h2⟩
    have := encrypt_upper_second h1 h2 s1 s2
    omega
  · intro h1 h2
    exact encrypt_other h1 h2 s1 s2

theorem C1_encrypt_rule_table_witness :
    ('a' ≤ 'e' ∧ 'e' ≤ 'm') ∧
    ((encrypt_character 'e' 3 4).toNat : Int) - 97 = ((('e'.toNat : Int) - 97) + 3 * 4) % 26 :=
  ⟨by decide, (C1_encrypt_rule_table 'e' 3 4).1 (by decide)⟩

/-- C2: for every alphabetic character, `decrypt_character_with_ambiguity`
computes the two candidates and their verification outcomes and returns
exactly per the decision table: ok1 only gives (c1,false), ok2 only gives
(c2,false), both gives (c1,true) with the first-half candidate winning the
tie-break, neither gives (ch,true). -/
theorem C2_decrypt_decision_table : ∀ (ch : Char) (s1 s2 : Int),
    (('a' ≤ ch ∧ ch ≤ 'z') →
      decrypt_character_with_ambiguity ch s1 s2 =
        (if lowercase_ok1 ch s1 s2 && !lowercase_ok2 ch s1 s2 then
          (lowercase_candidate1 ch s1 s2, false)
        else if lowercase_ok2 ch s1 s2 && !lowercase_ok1 ch s1 s2 then
          (lowercase_candidate2 ch s1 s2, false)
        else if lowercase_ok1 ch s1 s2 && lowercase_ok2 ch s1 s2 then
          (lowercase_candidate1 ch s1 s2, true)
        else (ch, true))) ∧
    (('A' ≤ ch ∧ ch ≤ 'Z') →
      decrypt_character_with_ambiguity ch s1 s2 =
        (if uppercase_ok1 ch s1 s2 && !uppercase_ok2 ch s1 s2 then
          (uppercase_candidate1 ch s1 s2, false)
        else if uppercase_ok2 ch s1 s2 && !uppercase_ok1 ch s1 s2 then
          (uppercase_candidate2 ch s1 s2, false)
        else if uppercase_ok1 ch s1 s2 && uppercase_ok2 ch s1 s2 then
          (uppercase_candidate1 ch s1 s2, true)
        else (ch, true))) := by
  intro ch s1 s2
  constructor
  · intro h
    exact decrypt_lower_table h s1 s2
  · intro h
    have hn2 : ch.toNat ≤ 90 := char_le_iff.mp h.2
    have hlow : ¬ ('a' ≤ ch ∧ ch ≤ 'z') := by
      rintro ⟨hx, -⟩
      have : 97 ≤ ch.toNat := char_le_iff.mp hx
      omega
    exact decrypt_upper_table hlow h s1 s2

theorem C2_decrypt_decision_table_witness :
    ('a' ≤ 'h' ∧ 'h' ≤ 'z') ∧
    decrypt_character_with_ambiguity 'h' 3 4 =
      (if lowercase_ok1 'h' 3 4 && !lowercase_ok2 'h' 3 4 then
        (lowercase_candidate1 'h' 3 4, false)
      else if lowercase_ok2 'h' 3 4 && !lowercase_ok1 'h' 3 4 then
        (lowercase_candidate2 'h' 3 4, false)
      else if lowercase_ok1 'h' 3 4 && lowercase_ok2 'h' 3 4 then
        (lowercase_candidate1 'h' 3 4, true)
      else ('h', true)) :=
  ⟨by decide, (C2_decrypt_decision_table 'h' 3 4).1 (by decide)⟩

/-- C10: the re-encryption conjunct of each candidate verification is
redundant: whenever a candidate lies in its assumed half, re-applying the
forward transform to it necessarily reproduces the input character, so each
verification outcome holds exactly when its candidate lies in its half. -/
theorem C10_reencryption_conjunct_redundant : ∀ (ch : Char) (s1 s2 : Int),
    (('a' ≤ ch ∧ ch ≤ 'z') →
      ((lowercase_candidate1 ch s1 s2 ≤ 'm' →
          encrypt_character (lowercase_candidate1 ch s1 s2) s1 s2 = ch) ∧
        (lowercase_ok1 ch s1 s2 = true ↔ lowercase_candidate1 ch s1 s2 ≤ 'm') ∧
        ('n' ≤ lowercase_candidate2 ch s1 s2 →
          encrypt_character (lowercase_candidate2 ch s1 s2) s1 s2 = ch) ∧
        (lowercase_ok2 ch s1 s2 = true ↔ 'n' ≤ lowercase_candidate2 ch s1 s2))) ∧
    (('A' ≤ ch ∧ ch ≤ 'Z') →
      ((uppercase_candidate1 ch s1 s2 ≤ 'M' →
          encrypt_character (uppercase_candidate1 ch s1 s2) s1 s2 = ch) ∧
        (uppercase_ok1 ch s1 s2 = true ↔ uppercase_candidate1 ch s1 s2 ≤ 'M') ∧
        ('N' ≤ uppercase_candidate2 ch s1 s2 →
          encrypt_character (uppercase_candidate2 ch s1 s2) s1 s2 = ch) ∧
        (uppercase_ok2 ch s1 s2 = true ↔ 'N' ≤ uppercase_candidate2 ch s1 s2))) := by
  intro ch s1 s2
  constructor
  · rintro ⟨ha, hb⟩
    refine ⟨lowercase_reencrypt1 ha hb, ?_, lowercase_reencrypt2 ha hb, ?_⟩
    · simp only [lowercase_ok1, Bool.and_eq_true, decide_eq_true_eq]
      exact ⟨fun h => h.1, fun h => ⟨h, lowercase_reencrypt1 ha hb h⟩⟩
    · simp only [lowercase_ok2, Bool.and_eq_true, decide_eq_true_eq]
      exact ⟨fun h => h.1, fun h => ⟨h, lowercase_reencrypt2 ha hb h⟩⟩
  · rintro ⟨ha, hb⟩
    refine ⟨uppercase_reencrypt1 ha hb, ?_, uppercase_reencrypt2 ha hb, ?_⟩
    · simp only [uppercase_ok1, Bool.and_eq_true, decide_eq_true_eq]
      exact ⟨fun h => h.1, fun h => ⟨h, uppercase_reencrypt1 ha hb h⟩⟩
    · simp only [uppercase_ok2, Bool.and_eq_true, decide_eq_true_eq]
      exact ⟨fun h => h.1, fun h => ⟨h, uppercase_reencrypt2 ha hb h⟩⟩

theorem C10_reencryption_conjunct_redundant_witness :
    ('a' ≤ 'h' ∧ 'h' ≤ 'z') ∧
    ((lowercase_candidate1 'h' 3 4 ≤ 'm' →
        encrypt_character (lowercase_candidate1 'h' 3 4) 3 4 = 'h') ∧
      (lowercase_ok1 'h' 3 4 = true ↔ lowercase_candidate1 'h' 3 4 ≤ 'm') ∧
      ('n' ≤ lowercase_candidate2 'h' 3 4 →
        encrypt_character (lowercase_candidate2 'h' 3 4) 3 4 = 'h') ∧
      (lowercase_ok2 'h' 3 4 = true ↔ 'n' ≤ lowercase_candidate2 'h' 3 4)) :=
  ⟨by decide, (C10_reencryption_conjunct_redundant 'h' 3 4).1 (by decide)⟩

/-- C8: the shift pair (0,0) is a no-op: every alphabetic character encrypts
to itself, and decoding any character whatsoever with shifts (0,0) returns it
unchanged and unambiguous. -/
theorem C8_zero_shift_noop : ∀ (c : Char),
    ((('a' ≤ c ∧ c ≤ 'z') ∨ ('A' ≤ c ∧ c ≤ 'Z')) → encrypt_character c 0 0 = c) ∧
    decrypt_character_with_ambiguity c 0 0 = (c, false) := by
  intro c
  constructor
  · rintro (⟨h1, h2⟩ | ⟨h1, h2⟩)
    · have hn1 : 97 ≤ c.toNat := char_le_iff.mp h1
      have hn2 : c.toNat ≤ 122 := char_le_iff.mp h2
      by_cases hm : c.toNat ≤ 109
      · have hmc : c ≤ 'm' := char_le_iff.mpr hm
        have he := encrypt_lower_first h1 hmc 0 0
        exact char_toNat_inj (by omega)
      · have hnc : 'n' ≤ c := char_le_iff.mpr (by omega : 110 ≤ c.toNat)
        have he := encrypt_lower_second hnc h2 0 0
        exact char_toNat_inj (by omega)
    · have hn1 : 65 ≤ c.toNat := char_le_iff.mp h1
      have hn2 : c.toNat ≤ 90 := char_le_iff.mp h2
      by_cases hm : c.toNat ≤ 77
      · have hmc : c ≤ 'M' := char_le_iff.mpr hm
        have he := encrypt_upper_first h1 hmc 0 0
        exact char_toNat_inj (by omega)
      · have hnc : 'N' ≤ c := char_le_iff.mpr (by omega : 78 ≤ c.toNat)
        have he := encrypt_upper_second hnc h2 0 0
        exact char_toNat_inj (by omega)
  · by_cases hl : 'a' ≤ c ∧ c ≤ 'z'
    · have hn1 : 97 ≤ c.toNat := char_le_iff.mp hl.1
      have hn2 : c.toNat ≤ 122 := char_le_iff.mp hl.2
      rw [decrypt_lower_cases hl.1 hl.2 0 0]
      by_cases hm : c.toNat ≤ 109
      · rw [if_pos (by omega), if_neg (by omega)]
        have hc := lowercase_candidate1_toNat c 0 0
        rw [char_toNat_inj (by omega : (lowercase_candidate1 c 0 0).toNat = c.toNat)]
      · rw [if_neg (by omega), if_pos (by omega)]
        have hc := lowercase_candidate2_toNat c 0 0
        rw [char_toNat_inj (by omega : (lowercase_candidate2 c 0 0).toNat = c.toNat)]
    · by_cases hu : 'A' ≤ c ∧ c ≤ 'Z'
      · have hn1 : 65 ≤ c.toNat := char_le_iff.mp hu.1
        have hn2 : c.toNat ≤ 90 := char_le_iff.mp hu.2
        rw [decrypt_upper_cases hu.1 hu.2 0 0]
        by_cases hm : c.toNat ≤ 77
        · rw [if_pos (by omega), if_neg (by omega)]
          have hc := uppercase_candidate1_toNat c 0 0
          rw [char_toNat_inj (by omega : (uppercase_candidate1 c 0 0).toNat = c.toNat)]
        · rw [if_neg (by omega), if_pos (by omega)]
          have hc := uppercase_candidate2_toNat c 0 0
          rw [char_toNat_inj (by omega : (uppercase_candidate2 c 0 0).toNat = c.toNat)]
      · exact decrypt_other hl hu 0 0

theorem C8_zero_shift_noop_witness :
    (('a' ≤ 'q' ∧ 'q' ≤ 'z') ∨ ('A' ≤ 'q' ∧ 'q' ≤ 'Z')) ∧
    encrypt_character 'q' 0 0 = 'q' :=
  ⟨by decide, (C8_zero_shift_noop 'q').1 (by decide)⟩

/-- C3: absence of collision implies exact, unambiguous recovery: if an
original in a-m encrypts to a character that no n-z character also encrypts
to, decoding returns the original unambiguously; analogously for originals in
n-z, A-M, and N-Z. -/
theorem C3_no_collision_exact_recovery : ∀ (s1 s2 : Int) (c : Char),
    (('a' ≤ c ∧ c ≤ 'm') →
      (∀ d : Char, 'n' ≤ d → d ≤ 'z' →
        encrypt_character d s1 s2 ≠ encrypt_character c s1 s2) →
      decrypt_character_with_ambiguity (encrypt_character c s1 s2) s1 s2 = (c, false)) ∧
    (('n' ≤ c ∧ c ≤ 'z') →
      (∀ d : Char, 'a' ≤ d → d ≤ 'm' →
        encrypt_character d s1 s2 ≠ encrypt_character c s1 s2) →
      decrypt_character_with_ambiguity (encrypt_character c s1 s2) s1 s2 = (c, false)) ∧
    (('A' ≤ c ∧ c ≤ 'M') →
      (∀ d : Char, 'N' ≤ d → d ≤ 'Z' →
        encrypt_character d s1 s2 ≠ encrypt_character c s1 s2) →
      decrypt_character_with_ambiguity (encrypt_character c s1 s2) s1 s2 = (c, false)) ∧
    (('N' ≤ c ∧ c ≤ 'Z') →
      (∀ d : Char, 'A' ≤ d → d ≤ 'M' →
        encrypt_character d s1 s2 ≠ encrypt_character c s1 s2) →
      decrypt_character_with_ambiguity (encrypt_character c s1 s2) s1 s2 = (c, false)) := by
  intro s1 s2 c
  refine ⟨?_, ?_, ?_, ?_⟩
  · rintro ⟨h1, h2⟩ hno
    have hn1 : 97 ≤ c.toNat := char_le_iff.mp h1
    have hn2 : c.toNat ≤ 109 := char_le_iff.mp h2
    have he := encrypt_lower_first h1 h2 s1 s2
    have hea : 'a' ≤ encrypt_character c s1 s2 :=
      char_le_iff.mpr (by omega : 97 ≤ (encrypt_character c s1 s2).toNat)
    have hez : encrypt_character c s1 s2 ≤ 'z' :=
      char_le_iff.mpr (by omega : (encrypt_character c s1 s2).toNat ≤ 122)
    rw [decrypt_lower_cases hea hez s1 s2]
    rw [if_pos (by omega :
      ((((encrypt_character c s1 s2).toNat : Int) - 97) - s1 * s2) % 26 ≤ 12)]
    have hd2 := lowercase_candidate2_toNat (encrypt_character c s1 s2) s1 s2
    by_cases hj2 : 13 ≤ (((encrypt_character c s1 s2).toNat : Int) - 97 + (s1 + s2)) % 26
    · exfalso
      have hdn : 'n' ≤ lowercase_candidate2 (encrypt_character c s1 s2) s1 s2 :=
        char_le_iff.mpr
          (by omega : 110 ≤ (lowercase_candidate2 (encrypt_character c s1 s2) s1 s2).toNat)
      have hdz : lowercase_candidate2 (encrypt_character c s1 s2) s1 s2 ≤ 'z' :=
        char_le_iff.mpr
          (by omega : (lowercase_candidate2 (encrypt_character c s1 s2) s1 s2).toNat ≤ 122)
      exact hno _ hdn hdz (lowercase_reencrypt2 hea hez hdn)
    · rw [if_neg (by omega)]
      have hc1 := lowercase_candidate1_toNat (encrypt_character c s1 s2) s1 s2
      rw [char_toNat_inj (by omega :
        (lowercase_candidate1 (encrypt_character c s1 s2) s1 s2).toNat = c.toNat)]
  · rintro ⟨h1, h2⟩ hno
    have hn1 : 110 ≤ c.toNat := char_le_iff.mp h1
    have hn2 : c.toNat ≤ 122 := char_le_iff.mp h2
    have he := encrypt_lower_second h1 h2 s1 s2
    have hea : 'a' ≤ encrypt_character c s1 s2 :=
      char_le_iff.mpr (by omega : 97 ≤ (encrypt_character c s1 s2).toNat)
    have hez : encrypt_character c s1 s2 ≤ 'z' :=
      char_le_iff.mpr (by omega : (encrypt_character c s1 s2).toNat ≤ 122)
    rw [decrypt_lower_cases hea hez s1 s2]
    have hd1 := lowercase_candidate1_toNat (encrypt_character c s1 s2) s1 s2
    by_cases hj1 : ((((encrypt_character c s1 s2).toNat : Int) - 97) - s1 * s2) % 26 ≤ 12
    · exfalso
      have hda : 'a' ≤ lowercase_candidate1 (encrypt_character c s1 s2) s1 s2 :=
        char_le_iff.mpr
          (by omega : 97 ≤ (lowercase_candidate1 (encrypt_character c s1 s2) s1 s2).toNat)
      have hdm : lowercase_candidate1 (encrypt_character c s1 s2) s1 s2 ≤ 'm' :=
        char_le_iff.mpr
          (by omega : (lowercase_candidate1 (encrypt_character c s1 s2) s1 s2).toNat ≤ 109)
      exact hno _ hda hdm (lowercase_reencrypt1 hea hez hdm)
    · rw [if_neg hj1]
      rw [if_pos (by omega :
        13 ≤ (((encrypt_character c s1 s2).toNat : Int) - 97 + (s1 + s2)) % 26)]
      have hc2 := lowercase_candidate2_toNat (encrypt_character c s1 s2) s1 s2
      rw [char_toNat_inj (by omega :
        (lowercase_candidate2 (encrypt_character c s1 s2) s1 s2).toNat = c.toNat)]
  · rintro ⟨h1, h2⟩ hno
    have hn1 : 65 ≤ c.toNat := char_le_iff.mp h1
    have hn2 : c.toNat ≤ 77 := char_le_iff.mp h2
    have he := encrypt_upper_first h1 h2 s1 s2
    have hea : 'A' ≤ encrypt_character c s1 s2 :=
      char_le_iff.mpr (by omega : 65 ≤ (encrypt_character c s1 s2).toNat)
    have hez : encrypt_character c s1 s2 ≤ 'Z' :=
      char_le_iff.mpr (by omega : (encrypt_character c s1 s2).toNat ≤ 90)
    rw [decrypt_upper_cases hea hez s1 s2]
    rw [if_pos (by omega :
      ((((encrypt_character c s1 s2).toNat : Int) - 65) + s1) % 26 ≤ 12)]
    have hd2 := uppercase_candidate2_toNat (encrypt_character c s1 s2) s1 s2
    by_cases hj2 : 13 ≤ ((((encrypt_character c s1 s2).toNat : Int) - 65) - s2 * s2) % 26
    · exfalso
      have hdn : 'N' ≤ uppercase_candidate2 (encrypt_character c s1 s2) s1 s2 :=
        char_le_iff.mpr
          (by omega : 78 ≤ (uppercase_candidate2 (encrypt_character c s1 s2) s1 s2).toNat)
      have hdz : uppercase_candidate2 (encrypt_character c s1 s2) s1 s2 ≤ 'Z' :=
        char_le_iff.mpr
          (by omega : (uppercase_candidate2 (encrypt_character c s1 s2) s1 s2).toNat ≤ 90)
      exact hno _ hdn hdz (uppercase_reencrypt2 hea hez hdn)
    · rw [if_neg (by omega)]
      have hc1 := uppercase_candidate1_toNat (encrypt_character c s1 s2) s1 s2
      rw [char_toNat_inj (by omega :
        (uppercase_candidate1 (encrypt_character c s1 s2) s1 s2).toNat = c.toNat)]
  · rintro ⟨h1, h2⟩ hno
    have hn1 : 78 ≤ c.toNat := char_le_iff.mp h1
    have hn2 : c.toNat ≤ 90 := char_le_iff.mp h2
    have he := encrypt_upper_second h1 h2 s1 s2
    have hea : 'A' ≤ encrypt_character c s1 s2 :=
      char_le_iff.mpr (by omega : 65 ≤ (encrypt_character c s1 s2).toNat)
    have hez : encrypt_character c s1 s2 ≤ 'Z' :=
      char_le_iff.mpr (by omega : (encrypt_character c s1 s2).toNat ≤ 90)
    rw [decrypt_upper_cases hea hez s1 s2]
    have hd1 := uppercase_candidate1_toNat (encrypt_character c s1 s2) s1 s2
    by_cases hj1 : ((((encrypt_character c s1 s2).toNat : Int) - 65) + s1) % 26 ≤ 12
    · exfalso
      have hda : 'A' ≤ uppercase_candidate1 (encrypt_character c s1 s2) s1 s2 :=
        char_le_iff.mpr
          (by omega : 65 ≤ (uppercase_candidate1 (encrypt_character c s1 s2) s1 s2).toNat)
      have hdm : uppercase_candidate1 (encrypt_character c s1 s2) s1 s2 ≤ 'M' :=
        char_le_iff.mpr
          (by omega : (uppercase_candidate1 (encrypt_character c s1 s2) s1 s2).toNat ≤ 77)
      exact hno _ hda hdm (uppercase_reencrypt1 hea hez hdm)
    · rw [if_neg hj1]
      rw [if_pos (by omega :
        13 ≤ ((((encrypt_character c s1 s2).toNat : Int) - 65) - s2 * s2) % 26)]
      have hc2 := uppercase_candidate2_toNat (encrypt_character c s1 s2) s1 s2
      rw [char_toNat_inj (by omega :
        (uppercase_candidate2 (encrypt_character c s1 s2) s1 s2).toNat = c.toNat)]

theorem C3_no_collision_exact_recovery_witness :
    ('a' ≤ 'a' ∧ 'a' ≤ 'm') ∧
    decrypt_character_with_ambiguity (encrypt_character 'a' 0 0) 0 0 = ('a', false) :=
  ⟨by decide, (C3_no_collision_exact_recovery 0 0 'a').1 (by decide) (by
    intro d hd1 hd2 hEq
    have hn1 : 110 ≤ d.toNat := char_le_iff.mp hd1
    have hn2 : d.toNat ≤ 122 := char_le_iff.mp hd2
    have he := encrypt_lower_second hd1 hd2 0 0
    have hda : encrypt_character 'a' 0 0 = 'a' := by decide
    rw [hda] at hEq
    have h97 := congrArg Char.toNat hEq
    rw [show 'a'.toNat = 97 from rfl] at h97
    omega)⟩

/-- C5 counterexample: decoding the character a with shifts (1,5) reports
ambiguous = true, yet no pair of distinct originals, one from each lowercase
half, encrypts to a under (1,5) — in fact nothing does, since a is outside
the image of the transform. -/
theorem C5_counterexample :
    (decrypt_character_with_ambiguity 'a' 1 5).2 = true ∧
    ¬ ∃ u v : Char, u ≠ v ∧ ('a' ≤ u ∧ u ≤ 'm') ∧ ('n' ≤ v ∧ v ≤ 'z') ∧
      encrypt_character u 1 5 = 'a' ∧ encrypt_character v 1 5 = 'a' := by
  constructor
  · decide
  · rintro ⟨u, v, -, ⟨hu1, hu2⟩, -, hu, -⟩
    have hn1 : 97 ≤ u.toNat := char_le_iff.mp hu1
    have hn2 : u.toNat ≤ 109 := char_le_iff.mp hu2
    have he := encrypt_lower_first hu1 hu2 1 5
    have h97 := congrArg Char.toNat hu
    rw [show 'a'.toNat = 97 from rfl] at h97
    omega

/-- C5 (amended): whenever the decoder reports ambiguous = true on an
alphabetic character AND at least one candidate verification succeeded (so the
flag comes from the genuine-collision branch, not the defensive fallback),
there exist two distinct valid originals, one from each half of the
character's case, that both encrypt to it. -/
theorem C5_ambiguity_soundness : ∀ (ch : Char) (s1 s2 : Int),
    (('a' ≤ ch ∧ ch ≤ 'z') →
      (decrypt_character_with_ambiguity ch s1 s2).2 = true →
      (lowercase_ok1 ch s1 s2 || lowercase_ok2 ch s1 s2) = true →
      ∃ u v : Char, u ≠ v ∧ ('a' ≤ u ∧ u ≤ 'm') ∧ ('n' ≤ v ∧ v ≤ 'z') ∧
        encrypt_character u s1 s2 = ch ∧ encrypt_character v s1 s2 = ch) ∧
    (('A' ≤ ch ∧ ch ≤ 'Z') →
      (decrypt_character_with_ambiguity ch s1 s2).2 = true →
      (uppercase_ok1 ch s1 s2 || uppercase_ok2 ch s1 s2) = true →
      ∃ u v : Char, u ≠ v ∧ ('A' ≤ u ∧ u ≤ 'M') ∧ ('N' ≤ v ∧ v ≤ 'Z') ∧
        encrypt_character u s1 s2 = ch ∧ encrypt_character v s1 s2 = ch) := by
  intro ch s1 s2
  constructor
  · rintro ⟨h1, h2⟩ hamb hsome
    rw [decrypt_lower_table ⟨h1, h2⟩ s1 s2] at hamb
    cases hok1 : lowercase_ok1 ch s1 s2 <;> cases hok2 : lowercase_ok2 ch s1 s2 <;>
      rw [hok1, hok2] at hamb hsome <;> simp at hamb hsome
    obtain ⟨hhalf1, henc1⟩ := by
      simpa only [lowercase_ok1, Bool.and_eq_true, decide_eq_true_eq] using hok1
    obtain ⟨hhalf2, henc2⟩ := by
      simpa only [lowercase_ok2, Bool.and_eq_true, decide_eq_true_eq] using hok2
    have hb1 : (lowercase_candidate1 ch s1 s2).toNat ≤ 109 := char_le_iff.mp hhalf1
    have hb2 : 110 ≤ (lowercase_candidate2 ch s1 s2).toNat := char_le_iff.mp hhalf2
    have hc1 := lowercase_candidate1_toNat ch s1 s2
    have hc2 := lowercase_candidate2_toNat ch s1 s2
    refine ⟨lowercase_candidate1 ch s1 s2, lowercase_candidate2 ch s1 s2,
      ?_, ⟨?_, hhalf1⟩, ⟨hhalf2, ?_⟩, henc1, henc2⟩
    · intro hEq
      have := congrArg Char.toNat hEq
      omega
    · exact char_le_iff.mpr (by omega : 97 ≤ (lowercase_candidate1 ch s1 s2).toNat)
    · exact char_le_iff.mpr (by omega : (lowercase_candidate2 ch s1 s2).toNat ≤ 122)
  · rintro ⟨h1, h2⟩ hamb hsome
    have hn2 : ch.toNat ≤ 90 := char_le_iff.mp h2
    have hlow : ¬ ('a' ≤ ch ∧ ch ≤ 'z') := by
      rintro ⟨hx, -⟩
      have : 97 ≤ ch.toNat := char_le_iff.mp hx
      omega
    rw [decrypt_upper_table hlow ⟨h1, h2⟩ s1 s2] at hamb
    cases hok1 : uppercase_ok1 ch s1 s2 <;> cases hok2 : uppercase_ok2 ch s1 s2 <;>
      rw [hok1, hok2] at hamb hsome <;> simp at hamb hsome
    obtain ⟨hhalf1, henc1⟩ := by
      simpa only [uppercase_ok1, Bool.and_eq_true, decide_eq_true_eq] using hok1
    obtain ⟨hhalf2, henc2⟩ := by
      simpa only [uppercase_ok2, Bool.and_eq_true, decide_eq_true_eq] using hok2
    have hb1 : (uppercase_candidate1 ch s1 s2).toNat ≤ 77 := char_le_iff.mp hhalf1
    have hb2 : 78 ≤ (uppercase_candidate2 ch s1 s2).toNat := char_le_iff.mp hhalf2
    have hc1 := uppercase_candidate1_toNat ch s1 s2
    have hc2 := uppercase_candidate2_toNat ch s1 s2
    refine ⟨uppercase_candidate1 ch s1 s2, uppercase_candidate2 ch s1 s2,
      ?_, ⟨?_, hhalf1⟩, ⟨hhalf2, ?_⟩, henc1, henc2⟩
    · intro hEq
      have := congrArg Char.toNat hEq
      omega
    · exact char_le_iff.mpr (by omega : 65 ≤ (uppercase_candidate1 ch s1 s2).toNat)
    · exact char_le_iff.mpr (by omega : (uppercase_candidate2 ch s1 s2).toNat ≤ 90)

theorem C5_ambiguity_soundness_witness :
    ('a' ≤ 'm' ∧ 'm' ≤ 'z') ∧
    (decrypt_character_with_ambiguity 'm' 3 4).2 = true ∧
    (lowercase_ok1 'm' 3 4 || lowercase_ok2 'm' 3 4) = true ∧
    ∃ u v : Char, u ≠ v ∧ ('a' ≤ u ∧ u ≤ 'm') ∧ ('n' ≤ v ∧ v ≤ 'z') ∧
      encrypt_character u 3 4 = 'm' ∧ encrypt_character v 3 4 = 'm' :=
  ⟨by decide, by decide, by decide,
    (C5_ambiguity_soundness 'm' 3 4).1 (by decide) (by decide) (by decide)⟩

/-- C6 counterexample: on the alphabetic input a with shifts (1,5) BOTH
candidate verifications fail (the first-half candidate v is not in a-m, the
second-half candidate g is not in n-z), so the defensive fallback branch runs
and returns the input unchanged, flagged ambiguous. -/
theorem C6_counterexample :
    lowercase_ok1 'a' 1 5 = false ∧ lowercase_ok2 'a' 1 5 = false ∧
    decrypt_character_with_ambiguity 'a' 1 5 = ('a', true) := by
  decide

/-- C6 (amended): on any character actually produced by encrypting an
alphabetic character under the same shift pair, at least one of the two
candidate verifications succeeds, so the defensive fallback branch is
unreachable on genuine ciphertext; on alphabetic characters outside the image
of the transform it can be reached. -/
theorem C6_fallback_unreachable_on_image : ∀ (c : Char) (s1 s2 : Int),
    (('a' ≤ c ∧ c ≤ 'z') →
      (lowercase_ok1 (encrypt_character c s1 s2) s1 s2 ||
        lowercase_ok2 (encrypt_character c s1 s2) s1 s2) = true) ∧
    (('A' ≤ c ∧ c ≤ 'Z') →
      (uppercase_ok1 (encrypt_character c s1 s2) s1 s2 ||
        uppercase_ok2 (encrypt_character c s1 s2) s1 s2) = true) := by
  intro c s1 s2
  constructor
  · rintro ⟨h1, h2⟩
    have hn1 : 97 ≤ c.toNat := char_le_iff.mp h1
    have hn2 : c.toNat ≤ 122 := char_le_iff.mp h2
    by_cases hm : c.toNat ≤ 109
    · have hmc : c ≤ 'm' := char_le_iff.mpr hm
      have he := encrypt_lower_first h1 hmc s1 s2
      have hea : 'a' ≤ encrypt_character c s1 s2 :=
        char_le_iff.mpr (by omega : 97 ≤ (encrypt_character c s1 s2).toNat)
      have hez : encrypt_character c s1 s2 ≤ 'z' :=
        char_le_iff.mpr (by omega : (encrypt_character c s1 s2).toNat ≤ 122)
      rw [lowercase_ok1_eq hea hez s1 s2]
      have : ((((encrypt_character c s1 s2).toNat : Int) - 97) - s1 * s2) % 26 ≤ 12 := by
        omega
      simp [this]
    · have hnc : 'n' ≤ c := char_le_iff.mpr (by omega : 110 ≤ c.toNat)
      have he := encrypt_lower_second hnc h2 s1 s2
      have hea : 'a' ≤ encrypt_character c s1 s2 :=
        char_le_iff.mpr (by omega : 97 ≤ (encrypt_character c s1 s2).toNat)
      have hez : encrypt_character c s1 s2 ≤ 'z' :=
        char_le_iff.mpr (by omega : (encrypt_character c s1 s2).toNat ≤ 122)
      rw [lowercase_ok2_eq hea hez s1 s2]
      have : 13 ≤ (((encrypt_character c s1 s2).toNat : Int) - 97 + (s1 + s2)) % 26 := by
        omega
      simp [this]
  · rintro ⟨h1, h2⟩
    have hn1 : 65 ≤ c.toNat := char_le_iff.mp h1
    have hn2 : c.toNat ≤ 90 := char_le_iff.mp h2
    by_cases hm : c.toNat ≤ 77
    · have hmc : c ≤ 'M' := char_le_iff.mpr hm
      have he := encrypt_upper_first h1 hmc s1 s2
      have hea : 'A' ≤ encrypt_character c s1 s2 :=
        char_le_iff.mpr (by omega : 65 ≤ (encrypt_character c s1 s2).toNat)
      have hez : encrypt_character c s1 s2 ≤ 'Z' :=
        char_le_iff.mpr (by omega : (encrypt_character c s1 s2).toNat ≤ 90)
      rw [uppercase_ok1_eq hea hez s1 s2]
      have : ((((encrypt_character c s1 s2).toNat : Int) - 65) + s1) % 26 ≤ 12 := by
        omega
      simp [this]
    · have hnc : 'N' ≤ c := char_le_iff.mpr (by omega : 78 ≤ c.toNat)
      have he := encrypt_upper_second hnc h2 s1 s2
      have hea : 'A' ≤ encrypt_character c s1 s2 :=
        char_le_iff.mpr (by omega : 65 ≤ (encrypt_character c s1 s2).toNat)
      have hez : encrypt_character c s1 s2 ≤ 'Z' :=
        char_le_iff.mpr (by omega : (encrypt_character c s1 s2).toNat ≤ 90)
      rw [uppercase_ok2_eq hea hez s1 s2]
      have : 13 ≤ ((((encrypt_character c s1 s2).toNat : Int) - 65) - s2 * s2) % 26 := by
        omega
      simp [this]

theorem C6_fallback_unreachable_on_image_witness :
    ('a' ≤ 'a' ∧ 'a' ≤ 'z') ∧
    (lowercase_ok1 (encrypt_character 'a' 1 5) 1 5 ||
      lowercase_ok2 (encrypt_character 'a' 1 5) 1 5) = true :=
  ⟨by decide, (C6_fallback_unreachable_on_image 'a' 1 5).1 (by decide)⟩

/-- C4: every lowercase letter round-trips exactly and unambiguously under
(s1,s2) precisely when (s1*s2 + s1 + s2) mod 26 == 0, and every uppercase
letter round-trips exactly and unambiguously precisely when
(s1 + s2*s2) mod 26 == 0 — the two conditions printed by
check_reversibility_for_text. -/
theorem C4_reversibility_conditions : ∀ (s1 s2 : Int),
    ((∀ c : Char, 'a' ≤ c → c ≤ 'z' →
        decrypt_character_with_ambiguity (encrypt_character c s1 s2) s1 s2 = (c, false)) ↔
      (s1 * s2 + s1 + s2) % 26 = 0) ∧
    ((∀ c : Char, 'A' ≤ c → c ≤ 'Z' →
        decrypt_character_with_ambiguity (encrypt_character c s1 s2) s1 s2 = (c, false)) ↔
      (s1 + s2 * s2) % 26 = 0) := by
  intro s1 s2
  constructor
  · constructor
    · intro hall
      by_contra hcond
      have hr0 : 0 ≤ (s1 * s2 + s1 + s2) % 26 := Int.emod_nonneg _ (by decide)
      have hr26 : (s1 * s2 + s1 + s2) % 26 < 26 := Int.emod_lt_of_pos _ (by decide)
      have hex : ∃ i : Int, 0 ≤ i ∧ i ≤ 12 ∧ 13 ≤ (i + (s1 * s2 + s1 + s2)) % 26 := by
        by_cases hr12 : (s1 * s2 + s1 + s2) % 26 ≤ 12
        · exact ⟨13 - (s1 * s2 + s1 + s2) % 26, by omega, by omega, by omega⟩
        · exact ⟨0, le_refl 0, by omega, by omega⟩
      obtain ⟨i, hi0, hi12, hi13⟩ := hex
      have hct : (Char.ofNat (i.toNat + 97)).toNat = i.toNat + 97 :=
        toNat_Char_ofNat (by omega)
      have h1 : 'a' ≤ Char.ofNat (i.toNat + 97) :=
        char_le_iff.mpr (by omega : 97 ≤ (Char.ofNat (i.toNat + 97)).toNat)
      have hmc : Char.ofNat (i.toNat + 97) ≤ 'm' :=
        char_le_iff.mpr (by omega : (Char.ofNat (i.toNat + 97)).toNat ≤ 109)
      have h2 : Char.ofNat (i.toNat + 97) ≤ 'z' :=
        char_le_iff.mpr (by omega : (Char.ofNat (i.toNat + 97)).toNat ≤ 122)
      have happ := hall _ h1 h2
      have he := encrypt_lower_first h1 hmc s1 s2
      have hea : 'a' ≤ encrypt_character (Char.ofNat (i.toNat + 97)) s1 s2 :=
        char_le_iff.mpr
          (by omega : 97 ≤ (encrypt_character (Char.ofNat (i.toNat + 97)) s1 s2).toNat)
      have hez : encrypt_character (Char.ofNat (i.toNat + 97)) s1 s2 ≤ 'z' :=
        char_le_iff.mpr
          (by omega : (encrypt_character (Char.ofNat (i.toNat + 97)) s1 s2).toNat ≤ 122)
      rw [decrypt_lower_cases hea hez s1 s2] at happ
      rw [if_pos (by omega :
          ((((encrypt_character (Char.ofNat (i.toNat + 97)) s1 s2).toNat : Int) - 97) -
            s1 * s2) % 26 ≤ 12),
        if_pos (by omega :
          13 ≤ (((encrypt_character (Char.ofNat (i.toNat + 97)) s1 s2).toNat : Int) - 97 +
            (s1 + s2)) % 26)] at happ
      have hsnd := congrArg Prod.snd happ
      simp at hsnd
    · intro hcond c h1 h2
      have hn1 : 97 ≤ c.toNat := char_le_iff.mp h1
      have hn2 : c.toNat ≤ 122 := char_le_iff.mp h2
      by_cases hm : c.toNat ≤ 109
      · have hmc : c ≤ 'm' := char_le_iff.mpr hm
        have he := encrypt_lower_first h1 hmc s1 s2
        have hea : 'a' ≤ encrypt_character c s1 s2 :=
          char_le_iff.mpr (by omega : 97 ≤ (encrypt_character c s1 s2).toNat)
        have hez : encrypt_character c s1 s2 ≤ 'z' :=
          char_le_iff.mpr (by omega : (encrypt_character c s1 s2).toNat ≤ 122)
        rw [decrypt_lower_cases hea hez s1 s2]
        rw [if_pos (by omega :
            ((((encrypt_character c s1 s2).toNat : Int) - 97) - s1 * s2) % 26 ≤ 12),
          if_neg (by omega :
            ¬ 13 ≤ (((encrypt_character c s1 s2).toNat : Int) - 97 + (s1 + s2)) % 26)]
        have hc1 := lowercase_candidate1_toNat (encrypt_character c s1 s2) s1 s2
        rw [char_toNat_inj (by omega :
          (lowercase_candidate1 (encrypt_character c s1 s2) s1 s2).toNat = c.toNat)]
      · have hnc : 'n' ≤ c := char_le_iff.mpr (by omega : 110 ≤ c.toNat)
        have he := encrypt_lower_second hnc h2 s1 s2
        have hea : 'a' ≤ encrypt_character c s1 s2 :=
          char_le_iff.mpr (by omega : 97 ≤ (encrypt_character c s1 s2).toNat)
        have hez : encrypt_character c s1 s2 ≤ 'z' :=
          char_le_iff.mpr (by omega : (encrypt_character c s1 s2).toNat ≤ 122)
        rw [decrypt_lower_cases hea hez s1 s2]
        rw [if_neg (by omega :
            ¬ ((((encrypt_character c s1 s2).toNat : Int) - 97) - s1 * s2) % 26 ≤ 12),
          if_pos (by omega :
            13 ≤ (((encrypt_character c s1 s2).toNat : Int) - 97 + (s1 + s2)) % 26)]
        have hc2 := lowercase_candidate2_toNat (encrypt_character c s1 s2) s1 s2
        rw [char_toNat_inj (by omega :
          (lowercase_candidate2 (encrypt_character c s1 s2) s1 s2).toNat = c.toNat)]
  · constructor
    · intro hall
      by_contra hcond
      have hr0 : 0 ≤ (s1 + s2 * s2) % 26 := Int.emod_nonneg _ (by decide)
      have hr26 : (s1 + s2 * s2) % 26 < 26 := Int.emod_lt_of_pos _ (by decide)
      have hex : ∃ i : Int, 0 ≤ i ∧ i ≤ 12 ∧ 13 ≤ (i - (s1 + s2 * s2)) % 26 := by
        by_cases hr12 : (s1 + s2 * s2) % 26 ≤ 12
        · exact ⟨0, le_refl 0, by omega, by omega⟩
        · exact ⟨(s1 + s2 * s2) % 26 - 13, by omega, by omega, by omega⟩
      obtain ⟨i, hi0, hi12, hi13⟩ := hex
      have hct : (Char.ofNat (i.toNat + 65)).toNat = i.toNat + 65 :=
        toNat_Char_ofNat (by omega)
      have h1 : 'A' ≤ Char.ofNat (i.toNat + 65) :=
        char_le_iff.mpr (by omega : 65 ≤ (Char.ofNat (i.toNat + 65)).toNat)
      have hmc : Char.ofNat (i.toNat + 65) ≤ 'M' :=
        char_le_iff.mpr (by omega : (Char.ofNat (i.toNat + 65)).toNat ≤ 77)
      have h2 : Char.ofNat (i.toNat + 65) ≤ 'Z' :=
        char_le_iff.mpr (by omega : (Char.ofNat (i.toNat + 65)).toNat ≤ 90)
      have happ := hall _ h1 h2
      have he := encrypt_upper_first h1 hmc s1 s2
      have hea : 'A' ≤ encrypt_character (Char.ofNat (i.toNat + 65)) s1 s2 :=
        char_le_iff.mpr
          (by omega : 65 ≤ (encrypt_character (Char.ofNat (i.toNat + 65)) s1 s2).toNat)
      have hez : encrypt_character (Char.ofNat (i.toNat + 65)) s1 s2 ≤ 'Z' :=
        char_le_iff.mpr
          (by omega : (encrypt_character (Char.ofNat (i.toNat + 65)) s1 s2).toNat ≤ 90)
      rw [decrypt_upper_cases hea hez s1 s2] at happ
      rw [if_pos (by omega :
          ((((encrypt_character (Char.ofNat (i.toNat + 65)) s1 s2).toNat : Int) - 65) +
            s1) % 26 ≤ 12),
        if_pos (by omega :
          13 ≤ ((((encrypt_character (Char.ofNat (i.toNat + 65)) s1 s2).toNat : Int) - 65) -
            s2 * s2) % 26)] at happ
      have hsnd := congrArg Prod.snd happ
      simp at hsnd
    · intro hcond c h1 h2
      have hn1 : 65 ≤ c.toNat := char_le_iff.mp h1
      have hn2 : c.toNat ≤ 90 := char_le_iff.mp h2
      by_cases hm : c.toNat ≤ 77
      · have hmc : c ≤ 'M' := char_le_iff.mpr hm
        have he := encrypt_upper_first h1 hmc s1 s2
        have hea : 'A' ≤ encrypt_character c s1 s2 :=
          char_le_iff.mpr (by omega : 65 ≤ (encrypt_character c s1 s2).toNat)
        have hez : encrypt_character c s1 s2 ≤ 'Z' :=
          char_le_iff.mpr (by omega : (encrypt_character c s1 s2).toNat ≤ 90)
        rw [decrypt_upper_cases hea hez s1 s2]
        rw [if_pos (by omega :
            ((((encrypt_character c s1 s2).toNat : Int) - 65) + s1) % 26 ≤ 12),
          if_neg (by omega :
            ¬ 13 ≤ ((((encrypt_character c s1 s2).toNat : Int) - 65) - s2 * s2) % 26)]
        have hc1 := uppercase_candidate1_toNat (encrypt_character c s1 s2) s1 s2
        rw [char_toNat_inj (by omega :
          (uppercase_candidate1 (encrypt_character c s1 s2) s1 s2).toNat = c.toNat)]
      · have hnc : 'N' ≤ c := char_le_iff.mpr (by omega : 78 ≤ c.toNat)
        have he := encrypt_upper_second hnc h2 s1 s2
        have hea : 'A' ≤ encrypt_character c s1 s2 :=
          char_le_iff.mpr (by omega : 65 ≤ (encrypt_character c s1 s2).toNat)
        have hez : encrypt_character c s1 s2 ≤ 'Z' :=
          char_le_iff.mpr (by omega : (encrypt_character c s1 s2).toNat ≤ 90)
        rw [decrypt_upper_cases hea hez s1 s2]
        rw [if_neg (by omega :
            ¬ ((((encrypt_character c s1 s2).toNat : Int) - 65) + s1) % 26 ≤ 12),
          if_pos (by omega :
            13 ≤ ((((encrypt_character c s1 s2).toNat : Int) - 65) - s2 * s2) % 26)]
        have hc2 := uppercase_candidate2_toNat (encrypt_character c s1 s2) s1 s2
        rw [char_toNat_inj (by omega :
          (uppercase_candidate2 (encrypt_character c s1 s2) s1 s2).toNat = c.toNat)]

theorem C4_reversibility_conditions_witness :
    ((2 : Int) * 8 + 2 + 8) % 26 = 0 ∧ ('a' ≤ 'p') ∧ ('p' ≤ 'z') ∧
    decrypt_character_with_ambiguity (encrypt_character 'p' 2 8) 2 8 = ('p', false) :=
  ⟨by decide, by decide, by decide,
    ((C4_reversibility_conditions 2 8).1.mpr (by decide)) 'p' (by decide) (by decide)⟩

theorem residue_pair_trivial : ∀ (x y : Fin 26),
    (x.val * y.val + x.val + y.val) % 26 = 0 →
    (x.val + y.val * y.val) % 26 = 0 → x.val = 0 ∧ y.val = 0 := by decide

/-- C7: no non-trivial shift pair satisfies the lowercase and the uppercase
reversibility condition simultaneously: if both (s1*s2 + s1 + s2) mod 26 == 0
and (s1 + s2*s2) mod 26 == 0 hold, then s1 and s2 are both congruent to 0
mod 26, and the pair acts as the no-op cipher: encrypt_character fixes every
alphabetic character. -/
theorem C7_no_nontrivial_simultaneous_pair : ∀ (s1 s2 : Int),
    (s1 * s2 + s1 + s2) % 26 = 0 → (s1 + s2 * s2) % 26 = 0 →
    (s1 % 26 = 0 ∧ s2 % 26 = 0) ∧
    ∀ c : Char, (('a' ≤ c ∧ c ≤ 'z') ∨ ('A' ≤ c ∧ c ≤ 'Z')) →
      encrypt_character c s1 s2 = c := by
  intro s1 s2 h1 h2
  have hmain : s1 % 26 = 0 ∧ s2 % 26 = 0 := by
    have ha0 : 0 ≤ s1 % 26 := Int.emod_nonneg _ (by decide)
    have ha26 : s1 % 26 < 26 := Int.emod_lt_of_pos _ (by decide)
    have hb0 : 0 ≤ s2 % 26 := Int.emod_nonneg _ (by decide)
    have hb26 : s2 % 26 < 26 := Int.emod_lt_of_pos _ (by decide)
    have e1 : s1 % 26 ≡ s1 [ZMOD 26] := Int.mod_modEq s1 26
    have e2 : s2 % 26 ≡ s2 [ZMOD 26] := Int.mod_modEq s2 26
    have k1 : ((s1 % 26) * (s2 % 26) + s1 % 26 + s2 % 26) % 26 = 0 := by
      have hm := (((e1.mul e2).add e1).add e2).eq
      omega
    have k2 : (s1 % 26 + (s2 % 26) * (s2 % 26)) % 26 = 0 := by
      have hm := (e1.add (e2.mul e2)).eq
      omega
    have hA : ((s1 % 26).toNat : Int) = s1 % 26 := Int.toNat_of_nonneg ha0
    have hB : ((s2 % 26).toNat : Int) = s2 % 26 := Int.toNat_of_nonneg hb0
    rw [← hA, ← hB] at k1 k2
    have kn1 : ((s1 % 26).toNat * (s2 % 26).toNat + (s1 % 26).toNat + (s2 % 26).toNat) % 26
        = 0 := by
      exact_mod_cast k1
    have kn2 : ((s1 % 26).toNat + (s2 % 26).toNat * (s2 % 26).toNat) % 26 = 0 := by
      exact_mod_cast k2
    obtain ⟨hx, hy⟩ :=
      residue_pair_trivial ⟨(s1 % 26).toNat, by omega⟩ ⟨(s2 % 26).toNat, by omega⟩ kn1 kn2
    have hx' : (s1 % 26).toNat = 0 := hx
    have hy' : (s2 % 26).toNat = 0 := hy
    omega
  refine ⟨hmain, ?_⟩
  have hd1 : (26 : Int) ∣ s1 := Int.dvd_of_emod_eq_zero hmain.1
  have hd2 : (26 : Int) ∣ s2 := Int.dvd_of_emod_eq_zero hmain.2
  have hp : (s1 * s2) % 26 = 0 := Int.emod_eq_zero_of_dvd (hd1.mul_right s2)
  have hq : (s2 * s2) % 26 = 0 := Int.emod_eq_zero_of_dvd (hd2.mul_right s2)
  have hs1 : s1 % 26 = 0 := hmain.1
  have hs2 : s2 % 26 = 0 := hmain.2
  rintro c (⟨hc1, hc2⟩ | ⟨hc1, hc2⟩)
  · have hn1 : 97 ≤ c.toNat := char_le_iff.mp hc1
    have hn2 : c.toNat ≤ 122 := char_le_iff.mp hc2
    by_cases hm : c.toNat ≤ 109
    · have hmc : c ≤ 'm' := char_le_iff.mpr hm
      have he := encrypt_lower_first hc1 hmc s1 s2
      exact char_toNat_inj (by omega)
    · have hnc : 'n' ≤ c := char_le_iff.mpr (by omega : 110 ≤ c.toNat)
      have he := encrypt_lower_second hnc hc2 s1 s2
      exact char_toNat_inj (by omega)
  · have hn1 : 65 ≤ c.toNat := char_le_iff.mp hc1
    have hn2 : c.toNat ≤ 90 := char_le_iff.mp hc2
    by_cases hm : c.toNat ≤ 77
    · have hmc : c ≤ 'M' := char_le_iff.mpr hm
      have he := encrypt_upper_first hc1 hmc s1 s2
      exact char_toNat_inj (by omega)
    · have hnc : 'N' ≤ c := char_le_iff.mpr (by omega : 78 ≤ c.toNat)
      have he := encrypt_upper_second hnc hc2 s1 s2
      exact char_toNat_inj (by omega)

theorem C7_no_nontrivial_simultaneous_pair_witness :
    ((0 : Int) * 0 + 0 + 0) % 26 = 0 ∧ ((0 : Int) + 0 * 0) % 26 = 0 ∧
    (((0 : Int) % 26 = 0 ∧ (0 : Int) % 26 = 0) ∧
      ∀ c : Char, (('a' ≤ c ∧ c ≤ 'z') ∨ ('A' ≤ c ∧ c ≤ 'Z')) →
        encrypt_character c 0 0 = c) :=
  ⟨by decide, by decide, C7_no_nontrivial_simultaneous_pair 0 0 (by decide) (by decide)⟩

theorem decryptLoop_positions (s1 s2 : Int) :
    ∀ (l : List Char) (i : Nat),
      List.Pairwise (· < ·) (decryptLoop s1 s2 i l).2 ∧
      ∀ m ∈ (decryptLoop s1 s2 i l).2,
        i ≤ m ∧ ∃ c, l[m - i]? = some c ∧ c.isAlpha = true := by
  intro l
  induction l with
  | nil =>
    intro i
    constructor
    · simp [decryptLoop]
    · intro m hm
      simp [decryptLoop] at hm
  | cons ch rest ih =>
    intro i
    obtain ⟨ihp, ihm⟩ := ih (i + 1)
    cases hc : (decrypt_character_with_ambiguity ch s1 s2).2 && ch.isAlpha with
    | true =>
      have hred : (decryptLoop s1 s2 i (ch :: rest)).2 =
          i :: (decryptLoop s1 s2 (i + 1) rest).2 := by
        simp [decryptLoop, hc]
      rw [hred]
      constructor
      · exact List.Pairwise.cons (fun m hm => by have := (ihm m hm).1; omega) ihp
      · intro m hm
        rcases List.mem_cons.mp hm with h | h
        · subst h
          exact ⟨le_refl m, ch, by simp, by simp only [Bool.and_eq_true] at hc; exact hc.2⟩
        · obtain ⟨hle, c, hc2, hal⟩ := ihm m h
          refine ⟨by omega, c, ?_, hal⟩
          have hmi : m - i = (m - (i + 1)) + 1 := by omega
          rw [hmi]
          simpa using hc2
    | false =>
      have hred : (decryptLoop s1 s2 i (ch :: rest)).2 =
          (decryptLoop s1 s2 (i + 1) rest).2 := by
        simp [decryptLoop, hc]
      rw [hred]
      constructor
      · exact ihp
      · intro m hm
        obtain ⟨hle, c, hc2, hal⟩ := ihm m hm
        refine ⟨by omega, c, ?_, hal⟩
        have hmi : m - i = (m - (i + 1)) + 1 := by omega
        rw [hmi]
        simpa using hc2

/-- C9: non-alphabetic characters pass through both transforms unchanged and
are never ambiguous, and consequently the list of ambiguous positions produced
by the stream decoder contains only (strictly increasing, 0-based) indices at
which the encrypted stream holds an alphabetic character. -/
theorem C9_nonalpha_invariance_and_positions : ∀ (s1 s2 : Int),
    (∀ c : Char, ¬ ('a' ≤ c ∧ c ≤ 'z') → ¬ ('A' ≤ c ∧ c ≤ 'Z') →
      encrypt_character c s1 s2 = c ∧
      decrypt_character_with_ambiguity c s1 s2 = (c, false)) ∧
    (∀ cipher : List Char,
      List.Pairwise (· < ·) (decrypt_file cipher s1 s2).2 ∧
      ∀ m ∈ (decrypt_file cipher s1 s2).2,
        ∃ c, cipher[m]? = some c ∧ c.isAlpha = true) := by
  intro s1 s2
  constructor
  · intro c h1 h2
    exact ⟨encrypt_other h1 h2 s1 s2, decrypt_other h1 h2 s1 s2⟩
  · intro cipher
    obtain ⟨hp, hm⟩ := decryptLoop_positions s1 s2 cipher 0
    refine ⟨hp, fun m hmem => ?_⟩
    obtain ⟨-, c, hc, hal⟩ := hm m hmem
    rw [Nat.sub_zero] at hc
    exact ⟨c, hc, hal⟩

theorem C9_nonalpha_invariance_and_positions_witness :
    ¬ ('a' ≤ '!' ∧ '!' ≤ 'z') ∧ ¬ ('A' ≤ '!' ∧ '!' ≤ 'Z') ∧
    encrypt_character '!' 3 4 = '!' ∧
    decrypt_character_with_ambiguity '!' 3 4 = ('!', false) :=
  ⟨by decide, by decide,
    ((C9_nonalpha_invariance_and_positions 3 4).1 '!' (by decide) (by decide)).1,
    ((C9_nonalpha_invariance_and_positions 3 4).1 '!' (by decide) (by decide)).2⟩
